import Mathlib

/-! Shallow embedding of the retrieval-fusion and corpus-integrity core of a
RAG backend (files `backend/utils.py`, `backend/main.py`, `backend/db.py`).

Modelling conventions:
* Python `str` is modelled as Lean `String` / `List Char`; the whitespace
  class, `str.strip`, `str.split`, `str.lower` and `string.punctuation`
  are reproduced for the ASCII range (all inputs of interest are ASCII).
* Python floats are modelled as exact rationals `ℚ` (the usual shallow
  embedding concession; no claim here depends on rounding of binary
  floating point).
* Python `None` is `Option.none`; the Python falsy test `if not x` on an
  optional string is true exactly for `none` and `some ""`.
* The external vector store and the embedding service are oracles: search
  results are passed in as lists, per-id delete success as a function
  `String → Bool`, and the store itself as a list of records so that
  frame conditions (what a run deletes) can be stated.
-/

/-- Python ASCII whitespace class, the characters matched by `\s` and
stripped by `str.strip()`. -/
def pyWs (c : Char) : Bool :=
  c = ' ' || c = '\t' || c = '\n' || c = '\r' || c = '\x0b' || c = '\x0c'

/-- Python `str.strip()` on a character list. -/
def pyStrip (l : List Char) : List Char :=
  ((l.dropWhile pyWs).reverse.dropWhile pyWs).reverse

/-- One pass of `re.sub(r"\s+", " ", text)`: every maximal run of
whitespace becomes a single space.  The boolean argument records whether
the previous character was whitespace. -/
def collapseWsAux : Bool → List Char → List Char
  | _, [] => []
  | prevWs, c :: rest =>
    if pyWs c then
      if prevWs then collapseWsAux true rest
      else ' ' :: collapseWsAux true rest
    else c :: collapseWsAux false rest

/-- The normalization `re.sub(r"\s+", " ", text).strip()` performed at the
top of `chunk_text` (utils.py line 90). -/
def normalizeText (l : List Char) : List Char :=
  pyStrip (collapseWsAux false l)

/-- Python `str.split()` with no argument: split on whitespace runs,
discarding empty fields.  `acc` is the current word, reversed. -/
def pySplitAux : List Char → List Char → List (List Char)
  | acc, [] => if acc.isEmpty then [] else [acc.reverse]
  | acc, c :: rest =>
    if pyWs c then
      if acc.isEmpty then pySplitAux [] rest
      else acc.reverse :: pySplitAux [] rest
    else pySplitAux (c :: acc) rest

/-- Python `str.split()` on a character list. -/
def pySplit (l : List Char) : List (List Char) := pySplitAux [] l

/-- Does `p` occur at the head of `l`? (list prefix test, executable). -/
def startsWithPat : List Char → List Char → Bool
  | [], _ => true
  | _ :: _, [] => false
  | p :: ps, c :: cs => p == c && startsWithPat ps cs

/-- Python substring containment `pat in l` on character lists. -/
def listContains (pat : List Char) : List Char → Bool
  | [] => pat.isEmpty
  | c :: cs => startsWithPat pat (c :: cs) || listContains pat cs

/-- Python substring containment on strings. -/
def strContains (pat s : String) : Bool := listContains pat.toList s.toList

/-- The 32 characters of Python `string.punctuation`. -/
def pyPunctuation : List Char :=
  "!\"#$%&\x27()*+,-./:;<=>?@[\\]^_\x60\x7b|\x7d~".toList

/-- The character class `[0-9A-Fa-f]` of the escaped-hex-byte regex. -/
def isHexChar (c : Char) : Bool :=
  c.isDigit || ('A' ≤ c && c ≤ 'F') || ('a' ≤ c && c ≤ 'f')

/-- Detector for the regex `\\x[0-9A-Fa-f]{2}` used by `is_human_readable`
(db.py line 298): a literal backslash, an `x`, then two hex digits. -/
def hasHexEscape : List Char → Bool
  | [] => false
  | c :: rest =>
    (c = '\\' && match rest with
      | 'x' :: a :: b :: _ => isHexChar a && isHexChar b
      | _ => false) || hasHexEscape rest

/-! Section: Chunker (`chunk_text`, utils.py lines 83-109)

The source loop mutates `start`; starts are integers clamped at zero, which
Nat subtraction reproduces exactly.  The loop does not terminate for every
parameter combination (e.g. `overlap = chunk_size_chars` on a long text),
so it is embedded with explicit fuel; `chunk_text` supplies fuel
`length + 1`, which theorem `chunk_text_terminates` shows is enough
whenever `overlap < chunk_size_chars`.  `REFINE_WITH_LLM` is `False` in the
source, so the loop body only appends the raw slice. -/

/-- One fuel-indexed unfolding of the `while start < L` loop of
`chunk_text`: slice `text[start : start + size]`, then
`start = (start + size) - overlap`, clamped at 0. -/
def chunkLoop (size overlap : Nat) (text : List Char) :
    Nat → Nat → Option (List (List Char))
  | 0, _ => none
  | fuel + 1, start =>
    if start < text.length then
      match chunkLoop size overlap text fuel (start + size - overlap) with
      | none => none
      | some rest => some (((text.drop start).take size) :: rest)
    else
      some []

/-- The chunker `chunk_text(text, chunk_size_chars, overlap)`: normalize
whitespace, then emit windows of `chunk_size_chars` characters advancing by
`chunk_size_chars - overlap`.  `none` models a non-terminating run (the
fuel `length + 1` is proved sufficient for all terminating parameter
choices). -/
def chunk_text (text : String) (chunk_size_chars overlap : Nat) :
    Option (List String) :=
  let t := normalizeText text.toList
  (chunkLoop chunk_size_chars overlap t (t.length + 1) 0).map
    (fun l => l.map String.mk)

/-! Section: Quality classifier (`is_human_readable` and the corruption flag of
`find_corrupted_chunks`, db.py lines 287-357) -/

/-- The fixed binary-format marker list of `is_human_readable`
(db.py line 294). -/
def binary_markers : List String := ["endstream", "obj", "xref", "%PDF", "stream"]

/-- The readability heuristic `is_human_readable` (db.py lines 287-310) on
string input (the `isinstance` guard makes every non-string argument
unreadable; only the string branch is modelled). -/
def is_human_readable (text : String) : Bool :=
  let t := pyStrip text.toList
  if t.length < 10 then false
  else if binary_markers.any (fun m => listContains m.toList t) then false
  else if hasHexEscape t then false
  else
    let letters := (t.filter (fun c => c.isAlpha)).length
    let symbols := (t.filter (fun c => pyPunctuation.contains c)).length
    if letters = 0 then false
    else if symbols > letters * 2 then false
    else
      let words := pySplit t
      let real_words := (words.filter (fun w => w.any (fun c => c.isAlpha))).length
      decide (real_words ≥ 3)

/-- The per-record corruption decision of `find_corrupted_chunks`
(db.py lines 338-348): unreadable, or any of the six extra heuristics.
Fractional thresholds are exact rationals: `x > len * 0.35` becomes
`20 * x > 7 * len` and `x > len * 0.5` becomes `2 * x > len`. -/
def corrupted_flag (chunk : String) : Bool :=
  let cs := chunk.toList
  let readable := is_human_readable chunk
  let too_many_symbols :=
    decide (0 < cs.length) &&
    decide (20 * (cs.filter (fun c => pyPunctuation.contains c)).length > 7 * cs.length)
  let weird_unicode := cs.any (fun c => decide (c.toNat > 50000))
  let repeated_char := decide (cs.eraseDups.length ≤ 3) && decide (cs.length > 20)
  let too_few_words := decide ((pySplit cs).length < 3)
  let token_noise := (pySplit cs).any (fun t => decide (t.length > 40))
  let mostly_digits :=
    decide (0 < cs.length) && decide (2 * (cs.filter (fun c => c.isDigit)).length > cs.length)
  !readable || too_many_symbols || weird_unicode || repeated_char ||
    too_few_words || token_noise || mostly_digits

/-! Section: Score fusion ranker (`safe` and `merge_and_rank`, main.py
lines 113-170)

Each search hit carries its store-reported raw signal (`distance` for the
vector list, `score` for the keyword and hybrid lists) as an optional
rational; `none` is Python `None` / a missing key.  The Python dict
`combined` is an insertion-ordered association list: assignment to an
existing key keeps its position, a new key is appended, exactly as CPython
dicts behave.  `list.sort(key=..., reverse=True)` is a stable descending
sort, whose output is reproduced by stable insertion. -/

/-- One record of a search result list consumed by `merge_and_rank`:
`{"chunk": ..., "doc_id": ..., "distance"/"score": ...}`. -/
structure SearchHit where
  chunk : String
  doc_id : String
  signal : Option ℚ
deriving Repr, DecidableEq

/-- The coercion helper `safe` (main.py lines 113-117): `float(x or 0)`,
i.e. `None` (and unparsable values, outside this model) become `0.0`. -/
def safe (x : Option ℚ) : ℚ := x.getD 0

/-- One value of the `combined` dict built by `merge_and_rank`. -/
structure FEntry where
  chunk : String
  doc_id : String
  vector_score : ℚ
  bm25_score : ℚ
  hybrid_score : ℚ
deriving Repr, DecidableEq

/-- Python dict assignment `m[k] = v`: replace in place when the key
exists (its insertion-order position is kept), else append. -/
def dictAssign (m : List (String × FEntry)) (k : String) (v : FEntry) :
    List (String × FEntry) :=
  if m.any (fun p => p.1 == k) then
    m.map (fun p => if p.1 == k then (p.1, v) else p)
  else m ++ [(k, v)]

/-- Python `m.setdefault(k, dflt)` followed by a field mutation `f` on the
returned entry. -/
def dictSetdefaultThen (m : List (String × FEntry)) (k : String)
    (dflt : FEntry) (f : FEntry → FEntry) : List (String × FEntry) :=
  if m.any (fun p => p.1 == k) then
    m.map (fun p => if p.1 == k then (p.1, f p.2) else p)
  else m ++ [(k, f dflt)]

/-- The vector loop body of `merge_and_rank` (main.py lines 124-133):
distance is converted by `1 / (1 + safe(distance))` and the entry is
(re)assigned wholesale. -/
def vecStep (m : List (String × FEntry)) (r : SearchHit) :
    List (String × FEntry) :=
  dictAssign m r.chunk ⟨r.chunk, r.doc_id, 1 / (1 + safe r.signal), 0, 0⟩

/-- The BM25 loop body (main.py lines 136-145): `setdefault` then
`["bm25_score"] += safe(score)`. -/
def bm25Step (m : List (String × FEntry)) (r : SearchHit) :
    List (String × FEntry) :=
  dictSetdefaultThen m r.chunk ⟨r.chunk, r.doc_id, 0, 0, 0⟩
    (fun e => { e with bm25_score := e.bm25_score + safe r.signal })

/-- The hybrid loop body (main.py lines 148-157): `setdefault` then
`["hybrid_score"] += safe(score)`. -/
def hybridStep (m : List (String × FEntry)) (r : SearchHit) :
    List (String × FEntry) :=
  dictSetdefaultThen m r.chunk ⟨r.chunk, r.doc_id, 0, 0, 0⟩
    (fun e => { e with hybrid_score := e.hybrid_score + safe r.signal })

/-- One element of the ranked output list: the entry fields plus the fused
`score`. -/
structure RankedEntry where
  chunk : String
  doc_id : String
  vector_score : ℚ
  bm25_score : ℚ
  hybrid_score : ℚ
  score : ℚ
deriving Repr, DecidableEq

/-- The fused score `0.5 * vector + 0.3 * bm25 + 0.2 * hybrid`
(main.py lines 162-166). -/
def finalScore (e : FEntry) : ℚ :=
  1/2 * e.vector_score + 3/10 * e.bm25_score + 1/5 * e.hybrid_score

/-- Attach the fused score to an entry (`{**d, "score": final}`). -/
def toRanked (e : FEntry) : RankedEntry :=
  ⟨e.chunk, e.doc_id, e.vector_score, e.bm25_score, e.hybrid_score, finalScore e⟩

/-- Insert into a descending-sorted list, after any element of equal
score; folding this over the list from the left reproduces the output of
the stable Python `sort(key=score, reverse=True)`. -/
def insertRanked (x : RankedEntry) : List RankedEntry → List RankedEntry
  | [] => [x]
  | y :: ys => if x.score > y.score then x :: y :: ys else y :: insertRanked x ys

/-- Stable descending sort by fused score. -/
def sortByScoreDesc (l : List RankedEntry) : List RankedEntry :=
  l.foldl (fun acc x => insertRanked x acc) []

/-- The `combined` dict after the three accumulation loops of
`merge_and_rank`: the vector loop, then the BM25 loop, then the hybrid
loop, starting from the empty dict. -/
def combinedMap (vec bm25 hybrid : List SearchHit) : List (String × FEntry) :=
  hybrid.foldl hybridStep (bm25.foldl bm25Step (vec.foldl vecStep []))

/-- The score fusion ranker `merge_and_rank(vec, bm25, hybrid, top_k)`
(main.py lines 120-170). -/
def merge_and_rank (vec bm25 hybrid : List SearchHit) (top_k : Nat) :
    List RankedEntry :=
  (sortByScoreDesc ((combinedMap vec bm25 hybrid).map (fun p => toRanked p.2))).take top_k

/-! Section: Similarity bulk-delete engine (`_safe_delete` and
`delete_similar_to_prompt`, db.py lines 361-515)

The prompt argument is the value of `getattr(prompt, "query", prompt)`:
either a string or some non-string value.  The embedding service and the
two store searches are oracles (the vector and BM25 result lists are
inputs), `_safe_delete` success per id is an oracle `String → Bool`, and
the store is a list of records so the run can report the resulting store
and the trace of collaborator calls it made. -/

/-- One stored record, as paged out of the collection: its id and its
`properties` (`chunk`, with the older `text` key as fallback, and
`doc_id`). -/
structure StoredRec where
  uuid : Option String
  doc_id : Option String
  chunkProp : Option String
  textProp : Option String
deriving Repr, DecidableEq

/-- Python `a or b` for an optional string `a`: `None` and `""` fall
through to the default. -/
def pyOrStr (a : Option String) (b : String) : String :=
  match a with
  | none => b
  | some s => if s = "" then b else s

/-- The text of a stored record:
`props.get("chunk") or props.get("text") or ""`. -/
def recText (r : StoredRec) : String := pyOrStr r.chunkProp (pyOrStr r.textProp "")

/-- One search-result object on the delete path, with its `uuid`, its
`chunk` property and its metadata fields `distance` and `score` (each
absent for hits coming from the other search mode). -/
structure DObj where
  uuid : Option String
  chunk : String
  distance : Option ℚ
  score : Option ℚ
deriving Repr, DecidableEq

/-- The distance-to-similarity conversion (db.py lines 453-464): `None`
gives `0.0`; a distance in `[0, 1]` gives `1 - d`; any other distance
gives `1 / (1 + d)`. -/
def vec_similarity (distance : Option ℚ) : ℚ :=
  match distance with
  | none => 0
  | some d => if 0 ≤ d ∧ d ≤ 1 then 1 - d else 1 / (1 + d)

/-- BM25 score normalization (db.py lines 466-470):
`min(float(score) / 10.0, 1.0)`, with the `getattr` default `0` and the
`except` fallback both landing on `0.0`. -/
def bm25_similarity (score : Option ℚ) : ℚ := min (safe score / 10) 1

/-- The static keyword-boost vocabulary (db.py lines 429-432). -/
def boost_keywords : List String :=
  ["ayush", "singh", "developer", "rag", "ai", "aiml", "weaviate", "tech", "stack"]

/-- Python `str.lower()` (ASCII). -/
def strLower (s : String) : String := String.mk (s.toList.map Char.toLower)

/-- Keyword boosting (db.py lines 472-476): `0.30` when the lowercased
chunk contains any lowercased vocabulary term as a substring. -/
def keyword_boost (chunk : String) : ℚ :=
  if (boost_keywords.map strLower).any (fun k => strContains k (strLower chunk))
  then 3/10 else 0

/-- The composite similarity (db.py lines 478-480):
`min(0.6 * vec + 0.3 * bm25 + boost, 1.0)`. -/
def final_similarity (o : DObj) : ℚ :=
  min (6/10 * vec_similarity o.distance + 3/10 * bm25_similarity o.score
        + keyword_boost o.chunk) 1

/-- The deletion queue (db.py lines 491-493): the uuid of every candidate
whose composite similarity reaches the threshold, in result order,
duplicates and missing ids included. -/
def selectForDeletion (similarity_threshold : ℚ) (results : List DObj) :
    List (Option String) :=
  (results.filter (fun o => similarity_threshold ≤ final_similarity o)).map
    (fun o => o.uuid)

/-- One record of the `debug` audit list (db.py lines 482-489). -/
structure DebugEntry where
  uuid : Option String
  chunk_preview : String
  vector_similarity : ℚ
  bm25_similarity : ℚ
  keyword_boost : ℚ
  final_similarity : ℚ
deriving Repr, DecidableEq

/-- Build the debug record of one candidate. -/
def mkDebug (o : DObj) : DebugEntry :=
  ⟨o.uuid, String.mk (o.chunk.toList.take 180), vec_similarity o.distance,
    bm25_similarity o.score, keyword_boost o.chunk, final_similarity o⟩

/-- A collaborator call made during a maintenance run, for stating which
operations a path performs. -/
inductive StoreOp where
  | fetchAll
  | embedText
  | nearVectorSearch
  | bm25Search
  | tryDelete (uuid : String)
deriving Repr, DecidableEq

/-- Outcome of `delete_similar_to_prompt`: the raised `ValueError`, the
early `{"deleted": 0, "reason": "no results found"}` return, or the full
report dict (db.py lines 392-393, 423-424 and 509-515). -/
inductive DelOutcome where
  | validationError (msg : String)
  | noResults
  | report (prompt : String) (matched_count : Nat)
      (deleted failed : List String) (debug_sample : List DebugEntry)
deriving Repr, DecidableEq

/-- The deletion loop (db.py lines 498-507): falsy uuids (`None` or `""`)
are skipped by `if not uid: continue`; otherwise `_safe_delete` is
attempted — on success the id goes to `deleted` and the record leaves the
store, on failure it goes to `failed`.  Returns
`(deleted, failed, store after, ops performed)`. -/
def deletionLoop (delOk : String → Bool) :
    List (Option String) → List StoredRec →
      List String × List String × List StoredRec × List StoreOp
  | [], store => ([], [], store, [])
  | none :: rest, store => deletionLoop delOk rest store
  | some s :: rest, store =>
    if s = "" then deletionLoop delOk rest store
    else if delOk s then
      let res := deletionLoop delOk rest (store.filter (fun r => r.uuid ≠ some s))
      (s :: res.1, res.2.1, res.2.2.1, StoreOp.tryDelete s :: res.2.2.2)
    else
      let res := deletionLoop delOk rest store
      (res.1, s :: res.2.1, res.2.2.1, StoreOp.tryDelete s :: res.2.2.2)

/-- The argument of `delete_similar_to_prompt` after
`getattr(prompt, "query", prompt)`: a string, or a non-string value. -/
inductive PromptArg where
  | str (s : String)
  | nonString
deriving Repr, DecidableEq

/-- The bulk-delete engine `delete_similar_to_prompt` (db.py
lines 378-515).  Returns the outcome, the store after the run, and the
trace of collaborator calls in program order (embedding, the two searches,
then one `tryDelete` per truthy queued id). -/
def delete_similar_to_prompt (prompt : PromptArg) (similarity_threshold : ℚ)
    (store : List StoredRec) (vec_results bm25_results : List DObj)
    (delOk : String → Bool) :
    DelOutcome × List StoredRec × List StoreOp :=
  match prompt with
  | .nonString => (.validationError "prompt must be a non-empty string", store, [])
  | .str s =>
    if (pyStrip s.toList).isEmpty then
      (.validationError "prompt must be a non-empty string", store, [])
    else
      let results := vec_results ++ bm25_results
      let searchOps : List StoreOp := [.embedText, .nearVectorSearch, .bm25Search]
      if results.isEmpty then (.noResults, store, searchOps)
      else
        let debug := results.map mkDebug
        let to_delete := selectForDeletion similarity_threshold results
        let (deleted, failed, store2, delOps) := deletionLoop delOk to_delete store
        (.report s to_delete.length deleted failed (debug.take 25),
          store2, searchOps ++ delOps)

/-! Section: Corruption scanner (`find_corrupted_chunks`, db.py lines 331-357) -/

/-- One row of the scanner report: the record id, its `doc_id` and the
first 200 characters of its text. -/
structure CorruptedItem where
  id : Option String
  doc_id : Option String
  preview : String
deriving Repr, DecidableEq

/-- The flagged-record report of `find_corrupted_chunks`: every record
whose text trips `corrupted_flag`, in corpus order, with a 200-character
preview. -/
def find_corrupted_chunks (corpus : List StoredRec) : List CorruptedItem :=
  (corpus.filter (fun r => corrupted_flag (recText r))).map
    (fun r => ⟨r.uuid, r.doc_id, String.mk ((recText r).toList.take 200)⟩)

/-- The `find_corrupted_chunks` entry point as a store run: it fetches the
whole corpus (paged `fetch_all_objects`), computes the report, performs no
other store operation, and leaves the store as it was. -/
def find_corrupted_chunks_run (store : List StoredRec) :
    List CorruptedItem × List StoredRec × List StoreOp :=
  (find_corrupted_chunks store, store, [StoreOp.fetchAll])

/-- A delete oracle under which every `_safe_delete` attempt succeeds. -/
def alwaysDelOk : String → Bool := fun _ => true

/-- Componentwise non-negativity of a combined-dict entry. -/
def NonnegEntry (p : String × FEntry) : Prop :=
  0 ≤ p.2.vector_score ∧ 0 ≤ p.2.bm25_score ∧ 0 ≤ p.2.hybrid_score

/-- The combined-dict invariant for a chunk text `c` that never appears in
the vector list and has only null keyword/hybrid signals: its entry, if
any, keeps all three accumulated scores at zero (and the `chunk` field of every entry
field equals its key). -/
def ZeroForKey (c : String) (p : String × FEntry) : Prop :=
  p.2.chunk = p.1 ∧
  (p.1 = c → p.2.vector_score = 0 ∧ p.2.bm25_score = 0 ∧ p.2.hybrid_score = 0)

/-! Section: Helper lemmas about the executable substring test and stripping -/

theorem startsWithPat_iff (p l : List Char) :
    startsWithPat p l = true ↔ p <+: l := by
  induction p generalizing l with
  | nil => simp [startsWithPat, List.nil_prefix]
  | cons a ps ih =>
    cases l with
    | nil => simp [startsWithPat, List.prefix_nil]
    | cons c cs => simp [startsWithPat, List.cons_prefix_cons, ih]

theorem listContains_iff (p l : List Char) :
    listContains p l = true ↔ p <:+: l := by
  induction l with
  | nil => simp [listContains, List.isEmpty_iff, List.infix_nil]
  | cons c cs ih =>
    simp [listContains, List.infix_cons_iff, startsWithPat_iff, ih]

theorem infix_dropWhile_of_no_ws {p l : List Char}
    (hp : p ≠ []) (hws : ∀ c ∈ p, pyWs c = false) (h : p <:+: l) :
    p <:+: l.dropWhile pyWs := by
  induction l with
  | nil =>
    rw [List.infix_nil] at h
    exact absurd h hp
  | cons c cs ih =>
    rw [List.dropWhile_cons]
    by_cases hc : pyWs c = true
    · rw [if_pos hc]
      rcases List.infix_cons_iff.mp h with hpre | hinf
      · cases p with
        | nil => exact absurd rfl hp
        | cons a ps =>
          obtain ⟨rfl, -⟩ := List.cons_prefix_cons.mp hpre
          have := hws a (by simp)
          rw [this] at hc
          exact absurd hc (by simp)
      · exact ih hinf
    · rw [if_neg hc]
      exact h

theorem infix_of_reverses {p l : List Char} (h : p <:+: l) :
    p.reverse <:+: l.reverse := by
  obtain ⟨s, t, rfl⟩ := h
  exact ⟨t.reverse, s.reverse, by simp⟩

theorem infix_pyStrip_of_no_ws {p l : List Char}
    (hp : p ≠ []) (hws : ∀ c ∈ p, pyWs c = false) (h : p <:+: l) :
    p <:+: pyStrip l := by
  have h1 : p <:+: l.dropWhile pyWs := infix_dropWhile_of_no_ws hp hws h
  have h2 : p.reverse <:+: (l.dropWhile pyWs).reverse := infix_of_reverses h1
  have h3 : p.reverse <:+: ((l.dropWhile pyWs).reverse).dropWhile pyWs :=
    infix_dropWhile_of_no_ws (by simpa using hp)
      (fun c hc => hws c (List.mem_reverse.mp hc)) h2
  have h4 := infix_of_reverses h3
  rw [List.reverse_reverse] at h4
  exact h4

/-! Section: Claim C6 — concrete corruption-classifier decisions -/

/-- C6: the classifier decides the concrete examples of the spec as listed —
the 22-character run of `a` is flagged corrupted, the pangram is not
flagged, the 23-character all-digit string is flagged, and empty or
whitespace-only text is classified not-readable. -/
theorem corruption_heuristic_examples :
    corrupted_flag "aaaaaaaaaaaaaaaaaaaaaa" = true ∧
    corrupted_flag "The quick brown fox jumps over the lazy dog" = false ∧
    corrupted_flag "12345678901234567890123" = true ∧
    is_human_readable "" = false ∧
    is_human_readable " \t " = false := by decide

/-! Section: Claim C2 — the distance-to-similarity map is not globally
monotone: it decreases within each regime but jumps upward at the regime
boundary (`1 - d` reaches `0` at `d = 1`, while `1 / (1 + d)` restarts
near `1/2` just above it). -/

/-- C2 counterexample: distances `1 < 2` with
`similarity(1) = 0 < 1/3 = similarity(2)`, refuting strict monotone
decrease across the two conversion regimes. -/
theorem vec_similarity_monotone_cex :
    (0:ℚ) ≤ 1 ∧ (1:ℚ) < 2 ∧
    vec_similarity (some 1) < vec_similarity (some 2) := by
  norm_num [vec_similarity]

/-- C2 amended: the conversion is strictly decreasing within each regime —
on distances in `[0, 1]` (the `1 - d` regime) and on distances above `1`
(the `1 / (1 + d)` regime) — but not across the regime boundary. -/
theorem vec_similarity_monotone_within_regimes (d1 d2 : ℚ) :
    (0 ≤ d1 → d1 < d2 → d2 ≤ 1 →
      vec_similarity (some d2) < vec_similarity (some d1)) ∧
    (1 < d1 → d1 < d2 →
      vec_similarity (some d2) < vec_similarity (some d1)) := by
  constructor
  · intro h0 h12 h21
    have ha : 0 ≤ d1 ∧ d1 ≤ 1 := ⟨h0, le_of_lt (lt_of_lt_of_le h12 h21)⟩
    have hb : 0 ≤ d2 ∧ d2 ≤ 1 := ⟨le_trans h0 (le_of_lt h12), h21⟩
    simp only [vec_similarity, if_pos ha, if_pos hb]
    linarith
  · intro h1 h12
    have ha : ¬(0 ≤ d1 ∧ d1 ≤ 1) := by intro h; linarith [h.2]
    have hb : ¬(0 ≤ d2 ∧ d2 ≤ 1) := by intro h; linarith [h.2]
    simp only [vec_similarity, if_neg ha, if_neg hb]
    rw [one_div_lt_one_div (by linarith) (by linarith)]
    linarith

/-- C2 witness: the amended monotonicity applied inside each regime, at
distances `1/2 < 1` and `2 < 3`. -/
theorem vec_similarity_monotone_within_regimes_witness :
    vec_similarity (some 1) < vec_similarity (some (1/2)) ∧
    vec_similarity (some 3) < vec_similarity (some 2) :=
  ⟨(vec_similarity_monotone_within_regimes (1/2) 1).1 (by norm_num) (by norm_num) le_rfl,
   (vec_similarity_monotone_within_regimes 2 3).2 (by norm_num) (by norm_num)⟩

/-! Section: Claim C9 — binary markers are matched as raw substrings -/

/-- C9: any text of trimmed length at least 10 that contains `"obj"` or
`"stream"` anywhere — also inside an ordinary word such as `"object"` —
is classified not-readable, and the batch scanner therefore flags the
chunk corrupted regardless of its other properties. -/
theorem binary_marker_flags_corrupted (text : String)
    (hlen : 10 ≤ (pyStrip text.toList).length)
    (hm : "obj".toList <:+: text.toList ∨ "stream".toList <:+: text.toList) :
    is_human_readable text = false ∧ corrupted_flag text = true := by
  have hany : binary_markers.any
      (fun m => listContains m.toList (pyStrip text.toList)) = true := by
    rcases hm with h | h
    · refine List.any_eq_true.mpr ⟨"obj", by simp [binary_markers], ?_⟩
      exact (listContains_iff _ _).mpr
        (infix_pyStrip_of_no_ws (by decide) (by decide) h)
    · refine List.any_eq_true.mpr ⟨"stream", by simp [binary_markers], ?_⟩
      exact (listContains_iff _ _).mpr
        (infix_pyStrip_of_no_ws (by decide) (by decide) h)
  have hread : is_human_readable text = false := by
    simp only [is_human_readable]
    rw [if_neg (by omega), if_pos hany]
  exact ⟨hread, by simp [corrupted_flag, hread]⟩

/-- C9 witness: the ordinary sentence `"see the object here"` is rejected
as unreadable and flagged corrupted, purely because `"object"` contains
the marker `"obj"`. -/
theorem binary_marker_flags_corrupted_witness :
    is_human_readable "see the object here" = false ∧
    corrupted_flag "see the object here" = true :=
  binary_marker_flags_corrupted "see the object here" (by decide)
    (Or.inl (by decide))

/-! Section: Claim C4 — threshold comparison is inclusive -/

/-- C4: a candidate is queued for deletion exactly when its composite
similarity reaches `similarity_threshold`; in particular a candidate whose
composite similarity equals the threshold is queued (`≥`, not `>`). -/
theorem threshold_boundary_inclusive (similarity_threshold : ℚ)
    (results : List DObj) :
    (∀ o ∈ results, final_similarity o = similarity_threshold →
      o.uuid ∈ selectForDeletion similarity_threshold results) ∧
    (∀ u : Option String,
      u ∈ selectForDeletion similarity_threshold results ↔
      ∃ o ∈ results, o.uuid = u ∧ similarity_threshold ≤ final_similarity o) := by
  constructor
  · intro o ho heq
    simp only [selectForDeletion, List.mem_map]
    exact ⟨o, List.mem_filter.mpr ⟨ho, by simp [heq]⟩, rfl⟩
  · intro u
    simp only [selectForDeletion, List.mem_map, List.mem_filter,
      decide_eq_true_eq]
    constructor
    · rintro ⟨o, ⟨ho, hs⟩, rfl⟩
      exact ⟨o, ho, rfl, hs⟩
    · rintro ⟨o, ho, rfl, hs⟩
      exact ⟨o, ⟨ho, hs⟩, rfl⟩

/-- C4 witness: a candidate with composite similarity exactly `0` is
queued at threshold `0`. -/
theorem threshold_boundary_inclusive_witness :
    (some "u" : Option String) ∈ selectForDeletion 0 [⟨some "u", "", none, none⟩] := by
  have hfi : final_similarity ⟨some "u", "", none, none⟩ = 0 := by
    norm_num [final_similarity, vec_similarity, bm25_similarity, keyword_boost,
      safe, boost_keywords, strLower, strContains, listContains]
  exact (threshold_boundary_inclusive 0 [⟨some "u", "", none, none⟩]).1
    ⟨some "u", "", none, none⟩ (by simp) hfi

/-! Section: Claim C5 — invalid prompts are rejected before any store call -/

/-- C5: for a prompt whose extracted text is not a string, empty, or
whitespace-only, `delete_similar_to_prompt` raises the validation error,
makes no embedding or store call (empty operation trace), and leaves every
stored record unchanged. -/
theorem delete_similar_rejects_invalid_prompt (prompt : PromptArg)
    (similarity_threshold : ℚ) (store : List StoredRec)
    (vec_results bm25_results : List DObj) (delOk : String → Bool)
    (h : prompt = PromptArg.nonString ∨
      ∃ s, prompt = PromptArg.str s ∧ pyStrip s.toList = []) :
    delete_similar_to_prompt prompt similarity_threshold store
        vec_results bm25_results delOk
      = (DelOutcome.validationError "prompt must be a non-empty string",
         store, []) := by
  rcases h with rfl | ⟨s, rfl, hs⟩
  · rfl
  · have hs' : pyStrip s.data = [] := hs
    simp [delete_similar_to_prompt, hs']

/-- C5 witness: a whitespace-only prompt is rejected with the store intact
and an empty operation trace. -/
theorem delete_similar_rejects_invalid_prompt_witness :
    delete_similar_to_prompt (PromptArg.str " \t ") (1/2)
        [⟨some "u", some "d", some "keep me please", none⟩]
        [⟨some "u", "keep me please", some 0, none⟩] [] alwaysDelOk
      = (DelOutcome.validationError "prompt must be a non-empty string",
         [⟨some "u", some "d", some "keep me please", none⟩], []) :=
  delete_similar_rejects_invalid_prompt _ _ _ _ _ _
    (Or.inr ⟨" \t ", rfl, by decide⟩)

/-! Section: Claim C8 — the find operation is non-destructive -/

/-- C8: a `find_corrupted_chunks` run issues no delete against the store
and returns it unchanged, and the preview of every reported item is exactly the
first 200 characters of the text of the corresponding record. -/
theorem find_corrupted_nondestructive (store : List StoredRec) :
    (find_corrupted_chunks_run store).2.1 = store ∧
    (∀ op ∈ (find_corrupted_chunks_run store).2.2, ∀ u, op ≠ StoreOp.tryDelete u) ∧
    ∀ it ∈ (find_corrupted_chunks_run store).1, ∃ r ∈ store,
      corrupted_flag (recText r) = true ∧ it.id = r.uuid ∧
      it.doc_id = r.doc_id ∧
      it.preview = String.mk ((recText r).toList.take 200) := by
  refine ⟨rfl, ?_, ?_⟩
  · intro op hop u
    simp only [find_corrupted_chunks_run, List.mem_singleton] at hop
    subst hop
    simp
  · intro it hit
    simp only [find_corrupted_chunks_run, find_corrupted_chunks,
      List.mem_map, List.mem_filter] at hit
    obtain ⟨r, ⟨hr, hflag⟩, rfl⟩ := hit
    exact ⟨r, hr, hflag, rfl, rfl, rfl⟩

/-- C8 witness: on a one-record store holding corrupted text `"!!!"`, the
run leaves the store unchanged and reports the record with its (short)
text as the preview. -/
theorem find_corrupted_nondestructive_witness :
    (find_corrupted_chunks_run [⟨some "u1", some "d1", some "!!!", none⟩]).2.1
        = [⟨some "u1", some "d1", some "!!!", none⟩] ∧
    (find_corrupted_chunks_run [⟨some "u1", some "d1", some "!!!", none⟩]).1
        = [⟨some "u1", some "d1", "!!!"⟩] :=
  ⟨(find_corrupted_nondestructive [⟨some "u1", some "d1", some "!!!", none⟩]).1,
   by decide⟩

/-! Section: Claims C7 and C3 — chunker termination and edge cases -/

/-- The chunking loop returns immediately once the window start reaches or
exceeds the text length. -/
theorem chunkLoop_ends_past_length (size overlap fuel start : Nat)
    (t : List Char) (h : t.length ≤ start) :
    chunkLoop size overlap t (fuel + 1) start = some [] := by
  simp only [chunkLoop]
  rw [if_neg (by omega)]

/-- One unfolding step of the chunking loop at a start position still
inside the text. -/
theorem chunkLoop_step (size overlap fuel start : Nat) (t : List Char)
    (h : start < t.length) :
    chunkLoop size overlap t (fuel + 1) start
      = match chunkLoop size overlap t fuel (start + size - overlap) with
        | none => none
        | some rest => some ((t.drop start).take size :: rest) := by
  simp only [chunkLoop]
  rw [if_pos h]

/-- With `overlap < size` the window start strictly increases, so fuel
exceeding the remaining length always suffices. -/
theorem chunkLoop_isSome (size overlap : Nat) (t : List Char)
    (hov : overlap < size) :
    ∀ fuel start, t.length - start < fuel →
      (chunkLoop size overlap t fuel start).isSome := by
  intro fuel
  induction fuel with
  | zero => intro start h; omega
  | succ n ih =>
    intro start h
    by_cases hs : start < t.length
    · have hnext : t.length - (start + size - overlap) < n := by omega
      obtain ⟨rest, hrest⟩ :=
        Option.isSome_iff_exists.mp (ih (start + size - overlap) hnext)
      simp only [chunkLoop]
      rw [if_pos hs, hrest]
      rfl
    · simp only [chunkLoop]
      rw [if_neg hs]
      rfl

/-- C7: for every input text, any `window_size > 0` and any
`0 ≤ overlap < window_size`, `chunk_text` terminates (the fueled loop
completes), and its loop ends as soon as the window start reaches or
exceeds the normalized text length. -/
theorem chunk_text_terminates (text : String) (chunk_size_chars overlap : Nat)
    (hsize : 0 < chunk_size_chars) (hov : overlap < chunk_size_chars) :
    (chunk_text text chunk_size_chars overlap).isSome ∧
    ∀ fuel start, (normalizeText text.toList).length ≤ start →
      chunkLoop chunk_size_chars overlap (normalizeText text.toList)
        (fuel + 1) start = some [] := by
  constructor
  · obtain ⟨r, hr⟩ := Option.isSome_iff_exists.mp
      (chunkLoop_isSome chunk_size_chars overlap (normalizeText text.toList)
        hov ((normalizeText text.toList).length + 1) 0 (by omega))
    simp only [chunk_text]
    rw [hr]
    rfl
  · intro fuel start h
    exact chunkLoop_ends_past_length _ _ _ _ _ h

/-- C7 witness: the loop terminates on a concrete input, and returns
immediately from a start position past the text length. -/
theorem chunk_text_terminates_witness :
    (chunk_text "abcd" 5 2).isSome ∧
    chunkLoop 5 2 (normalizeText "abcd".toList) 1 9 = some [] :=
  ⟨(chunk_text_terminates "abcd" 5 2 (by decide) (by decide)).1,
   (chunk_text_terminates "abcd" 5 2 (by decide) (by decide)).2 0 9 (by decide)⟩

/-- C3 counterexample: `"abcd"` with `window_size = 5` and `overlap = 2`
is non-empty, normalizes to length `4 < 5`, yet chunks to
`["abcd", "d"]` — two chunks, not the single whole-input chunk the claim
promises (the second window starts at `5 - 2 = 3 < 4`). -/
theorem chunk_text_short_input_cex :
    normalizeText "abcd".toList ≠ [] ∧
    (normalizeText "abcd".toList).length < 5 ∧
    chunk_text "abcd" 5 2 = some ["abcd", "d"] ∧
    chunk_text "abcd" 5 2 ≠ some ["abcd"] := by decide

/-- C3 amended: empty (or whitespace-only) input chunks to the empty
sequence, and a non-empty input whose normalized length is at most
`window_size - overlap` (rather than merely less than `window_size`)
yields a single chunk equal to the whole normalized input. -/
theorem chunk_text_edge_cases (text : String) (chunk_size_chars overlap : Nat) :
    (normalizeText text.toList = [] →
      chunk_text text chunk_size_chars overlap = some []) ∧
    (normalizeText text.toList ≠ [] →
      (normalizeText text.toList).length + overlap ≤ chunk_size_chars →
      chunk_text text chunk_size_chars overlap
        = some [String.mk (normalizeText text.toList)]) := by
  constructor
  · intro h
    simp only [chunk_text, h]
    rfl
  · intro hne hlen
    obtain ⟨k, hk⟩ : ∃ k, (normalizeText text.toList).length = k + 1 := by
      cases hcase : normalizeText text.toList with
      | nil => exact absurd hcase hne
      | cons a l => exact ⟨l.length, rfl⟩
    have h1 : chunkLoop chunk_size_chars overlap (normalizeText text.toList)
        ((normalizeText text.toList).length + 1) 0
        = some [normalizeText text.toList] := by
      have hd : (normalizeText text.data).length = k + 1 := hk
      rw [hk, chunkLoop_step _ _ _ _ _ (by omega),
        chunkLoop_ends_past_length _ _ k _ _ (by omega)]
      simp [List.take_of_length_le
        (show (normalizeText text.data).length ≤ chunk_size_chars by omega)]
    simp only [chunk_text]
    rw [h1]
    rfl

/-- C3 witness: a whitespace-only input chunks to the empty sequence, and
`"hi mom"` (normalized length 6, with `6 + 2 ≤ 10`) chunks to the single
whole-input chunk. -/
theorem chunk_text_edge_cases_witness :
    chunk_text " " 5 2 = some [] ∧
    chunk_text "hi mom" 10 2 = some [String.mk (normalizeText "hi mom".toList)] :=
  ⟨(chunk_text_edge_cases " " 5 2).1 (by decide),
   (chunk_text_edge_cases "hi mom" 10 2).2 (by decide) (by decide)⟩

/-! Section: Claim C1 — fusion score bounds and null-signal handling -/

theorem foldl_preserve {α β : Type*} (step : β → α → β) (P : β → Prop) :
    ∀ (l : List α) (b : β), (∀ b' a, a ∈ l → P b' → P (step b' a)) → P b →
      P (l.foldl step b) := by
  intro l
  induction l with
  | nil => intro b _ hb; exact hb
  | cons a t ih =>
    intro b hstep hb
    exact ih (step b a)
      (fun b' a' ha' hb' => hstep b' a' (List.mem_cons_of_mem _ ha') hb')
      (hstep b a (List.mem_cons_self a t) hb)

theorem mem_dictAssign {P : String × FEntry → Prop} {m : List (String × FEntry)}
    {k : String} {v : FEntry} (hm : ∀ p ∈ m, P p) (hv : P (k, v)) :
    ∀ p ∈ dictAssign m k v, P p := by
  intro p hp
  simp only [dictAssign] at hp
  by_cases h : m.any (fun q => q.1 == k) = true
  · rw [if_pos h] at hp
    obtain ⟨q, hq, hpq⟩ := List.mem_map.mp hp
    by_cases hk : q.1 = k
    · rw [if_pos (by simpa using hk)] at hpq
      rw [← hpq, hk]
      exact hv
    · rw [if_neg (by simpa using hk)] at hpq
      rw [← hpq]
      exact hm q hq
  · rw [if_neg h] at hp
    rcases List.mem_append.mp hp with h1 | h2
    · exact hm p h1
    · rw [List.mem_singleton] at h2
      rw [h2]
      exact hv

theorem mem_dictSetdefaultThen {P : String × FEntry → Prop}
    {m : List (String × FEntry)} {k : String} {dflt : FEntry}
    {f : FEntry → FEntry} (hm : ∀ p ∈ m, P p) (hd : P (k, f dflt))
    (hf : ∀ q ∈ m, q.1 = k → P (q.1, f q.2)) :
    ∀ p ∈ dictSetdefaultThen m k dflt f, P p := by
  intro p hp
  simp only [dictSetdefaultThen] at hp
  by_cases h : m.any (fun q => q.1 == k) = true
  · rw [if_pos h] at hp
    obtain ⟨q, hq, hpq⟩ := List.mem_map.mp hp
    by_cases hk : q.1 = k
    · rw [if_pos (by simpa using hk)] at hpq
      rw [← hpq]
      exact hf q hq hk
    · rw [if_neg (by simpa using hk)] at hpq
      rw [← hpq]
      exact hm q hq
  · rw [if_neg h] at hp
    rcases List.mem_append.mp hp with h1 | h2
    · exact hm p h1
    · rw [List.mem_singleton] at h2
      rw [h2]
      exact hd

theorem mem_insertRanked {x y : RankedEntry} :
    ∀ {l : List RankedEntry}, y ∈ insertRanked x l → y = x ∨ y ∈ l := by
  intro l
  induction l with
  | nil =>
    intro h
    simp only [insertRanked, List.mem_singleton] at h
    exact Or.inl h
  | cons z zs ih =>
    intro h
    rw [insertRanked] at h
    by_cases hc : x.score > z.score
    · rw [if_pos hc] at h
      rcases List.mem_cons.mp h with h1 | h2
      · exact Or.inl h1
      · exact Or.inr h2
    · rw [if_neg hc] at h
      rcases List.mem_cons.mp h with h1 | h2
      · exact Or.inr (by simp [h1])
      · rcases ih h2 with h3 | h4
        · exact Or.inl h3
        · exact Or.inr (List.mem_cons_of_mem _ h4)

theorem mem_foldl_insertRanked {y : RankedEntry} :
    ∀ (l acc : List RankedEntry),
      y ∈ l.foldl (fun a x => insertRanked x a) acc → y ∈ acc ∨ y ∈ l := by
  intro l
  induction l with
  | nil => intro acc h; exact Or.inl h
  | cons x xs ih =>
    intro acc h
    rcases ih (insertRanked x acc) h with h1 | h2
    · rcases mem_insertRanked h1 with h3 | h4
      · exact Or.inr (by simp [h3])
      · exact Or.inl h4
    · exact Or.inr (List.mem_cons_of_mem _ h2)

theorem mem_sortByScoreDesc {y : RankedEntry} {l : List RankedEntry}
    (h : y ∈ sortByScoreDesc l) : y ∈ l := by
  rcases mem_foldl_insertRanked l [] h with h1 | h2
  · exact absurd h1 (List.not_mem_nil y)
  · exact h2

theorem mem_merge_and_rank {vec bm25 hybrid : List SearchHit} {top_k : Nat}
    {e : RankedEntry} (he : e ∈ merge_and_rank vec bm25 hybrid top_k) :
    ∃ p ∈ combinedMap vec bm25 hybrid, e = toRanked p.2 := by
  simp only [merge_and_rank] at he
  obtain ⟨p, hp, hpe⟩ :=
    List.mem_map.mp (mem_sortByScoreDesc (List.mem_of_mem_take he))
  exact ⟨p, hp, hpe.symm⟩

theorem combinedMap_nonneg {vec bm25 hybrid : List SearchHit}
    (hv : ∀ r ∈ vec, 0 ≤ safe r.signal)
    (hb : ∀ r ∈ bm25, 0 ≤ safe r.signal)
    (hh : ∀ r ∈ hybrid, 0 ≤ safe r.signal) :
    ∀ p ∈ combinedMap vec bm25 hybrid, NonnegEntry p := by
  have h1 : ∀ p ∈ vec.foldl vecStep [], NonnegEntry p := by
    apply foldl_preserve vecStep (fun m => ∀ p ∈ m, NonnegEntry p)
    · intro m r hr hm
      simp only [vecStep]
      apply mem_dictAssign hm
      refine ⟨?_, le_refl 0, le_refl 0⟩
      have h0 := hv r hr
      exact div_nonneg zero_le_one (by linarith)
    · simp
  have h2 : ∀ p ∈ bm25.foldl bm25Step (vec.foldl vecStep []), NonnegEntry p := by
    apply foldl_preserve bm25Step (fun m => ∀ p ∈ m, NonnegEntry p)
    · intro m r hr hm
      simp only [bm25Step]
      apply mem_dictSetdefaultThen hm
      · exact ⟨le_refl 0, by simpa using hb r hr, le_refl 0⟩
      · intro q hq _
        obtain ⟨q1, q2, q3⟩ := hm q hq
        exact ⟨q1, add_nonneg q2 (hb r hr), q3⟩
    · exact h1
  have h3 : ∀ p ∈ combinedMap vec bm25 hybrid, NonnegEntry p := by
    simp only [combinedMap]
    apply foldl_preserve hybridStep (fun m => ∀ p ∈ m, NonnegEntry p)
    · intro m r hr hm
      simp only [hybridStep]
      apply mem_dictSetdefaultThen hm
      · exact ⟨le_refl 0, le_refl 0, by simpa using hh r hr⟩
      · intro q hq _
        obtain ⟨q1, q2, q3⟩ := hm q hq
        exact ⟨q1, q2, add_nonneg q3 (hh r hr)⟩
    · exact h2
  exact h3

theorem combinedMap_zero_for_key {vec bm25 hybrid : List SearchHit} {c : String}
    (hvc : ∀ r ∈ vec, r.chunk ≠ c)
    (hbc : ∀ r ∈ bm25, r.chunk = c → r.signal = none)
    (hhc : ∀ r ∈ hybrid, r.chunk = c → r.signal = none) :
    ∀ p ∈ combinedMap vec bm25 hybrid, ZeroForKey c p := by
  have h1 : ∀ p ∈ vec.foldl vecStep [], ZeroForKey c p := by
    apply foldl_preserve vecStep (fun m => ∀ p ∈ m, ZeroForKey c p)
    · intro m r hr hm
      simp only [vecStep]
      apply mem_dictAssign hm
      exact ⟨rfl, fun h => absurd h (hvc r hr)⟩
    · simp
  have h2 : ∀ p ∈ bm25.foldl bm25Step (vec.foldl vecStep []), ZeroForKey c p := by
    apply foldl_preserve bm25Step (fun m => ∀ p ∈ m, ZeroForKey c p)
    · intro m r hr hm
      simp only [bm25Step]
      apply mem_dictSetdefaultThen hm
      · refine ⟨rfl, fun h => ⟨rfl, ?_, rfl⟩⟩
        rw [hbc r hr h]
        simp [safe]
      · intro q hq hqk
        obtain ⟨hchunk, hzero⟩ := hm q hq
        refine ⟨hchunk, fun h => ?_⟩
        obtain ⟨z1, z2, z3⟩ := hzero h
        refine ⟨z1, ?_, z3⟩
        rw [z2, hbc r hr (hqk ▸ h)]
        simp [safe]
    · exact h1
  simp only [combinedMap]
  apply foldl_preserve hybridStep (fun m => ∀ p ∈ m, ZeroForKey c p)
  · intro m r hr hm
    simp only [hybridStep]
    apply mem_dictSetdefaultThen hm
    · refine ⟨rfl, fun h => ⟨rfl, rfl, ?_⟩⟩
      rw [hhc r hr h]
      simp [safe]
    · intro q hq hqk
      obtain ⟨hchunk, hzero⟩ := hm q hq
      refine ⟨hchunk, fun h => ?_⟩
      obtain ⟨z1, z2, z3⟩ := hzero h
      refine ⟨z1, z2, ?_⟩
      rw [z3, hhc r hr (hqk ▸ h)]
      simp [safe]
  · exact h2

/-- C1 counterexample: a candidate present only in the vector list with a
null distance has all raw signals absent or null, yet is fused to score
`1/2` (the null distance is coerced to `0.0`, giving vector similarity
`1`), not `0`; and a keyword hit with raw score `-5` fuses to `-3/2 < 0`,
so fused scores are not always non-negative over arbitrary input lists. -/
theorem fusion_score_bounds_cex :
    (merge_and_rank [⟨"a", "d", none⟩] [] [] 6).map (fun e => e.score)
        = [1/2] ∧
    ¬((1:ℚ)/2 = 0) ∧
    (merge_and_rank [] [⟨"a", "d", some (-5)⟩] [] 6).map (fun e => e.score)
        = [-(3/2)] ∧
    (-(3:ℚ)/2 < 0) := by
  refine ⟨?_, by norm_num, ?_, by norm_num⟩
  · norm_num [merge_and_rank, combinedMap, vecStep, dictAssign, safe,
      sortByScoreDesc, insertRanked, toRanked, finalScore, List.foldl]
  · norm_num [merge_and_rank, combinedMap, bm25Step, dictSetdefaultThen, safe,
      sortByScoreDesc, insertRanked, toRanked, finalScore, List.foldl]

/-- C1 amended: null keyword and hybrid scores contribute zero, but a null
vector distance is coerced to distance `0` and contributes the maximal
vector similarity `1` (fused contribution `1/2`).  Provided every present
signal is non-negative once coerced (as store-reported distances and
relevance scores are), every fused score is `≥ 0`; and a candidate that
appears in no vector result and whose keyword/hybrid occurrences all carry
null scores is fused to exactly `0`.  No signal combination raises an
error (the embedding is total). -/
theorem fusion_score_bounds (vec bm25 hybrid : List SearchHit) (top_k : Nat)
    (c : String)
    (hv : ∀ r ∈ vec, 0 ≤ safe r.signal)
    (hb : ∀ r ∈ bm25, 0 ≤ safe r.signal)
    (hh : ∀ r ∈ hybrid, 0 ≤ safe r.signal) :
    (∀ e ∈ merge_and_rank vec bm25 hybrid top_k, 0 ≤ e.score) ∧
    ((∀ r ∈ vec, r.chunk ≠ c) →
      (∀ r ∈ bm25, r.chunk = c → r.signal = none) →
      (∀ r ∈ hybrid, r.chunk = c → r.signal = none) →
      ∀ e ∈ merge_and_rank vec bm25 hybrid top_k, e.chunk = c → e.score = 0) := by
  constructor
  · intro e he
    obtain ⟨p, hp, rfl⟩ := mem_merge_and_rank he
    obtain ⟨h1, h2, h3⟩ := combinedMap_nonneg hv hb hh p hp
    simp only [toRanked, finalScore]
    linarith
  · intro h1 h2 h3 e he hc
    obtain ⟨p, hp, rfl⟩ := mem_merge_and_rank he
    obtain ⟨hchunk, hzero⟩ := combinedMap_zero_for_key h1 h2 h3 p hp
    have hkey : p.1 = c := by
      rw [← hchunk]
      exact hc
    obtain ⟨z1, z2, z3⟩ := hzero hkey
    simp only [toRanked, finalScore, z1, z2, z3]
    ring

/-- C1 witness: on a concrete input with one non-null vector hit and one
null-scored keyword hit for chunk `"c"`, the fused scores are `[1/4, 0]`,
all non-negative, and the `"c"` candidate scores exactly `0`. -/
theorem fusion_score_bounds_witness :
    (merge_and_rank [⟨"x", "dx", some 1⟩] [⟨"c", "dc", none⟩] [] 6).map
        (fun e => e.score) = [1/4, 0] ∧
    (∀ e ∈ merge_and_rank [⟨"x", "dx", some 1⟩] [⟨"c", "dc", none⟩] [] 6,
      0 ≤ e.score) ∧
    (∀ e ∈ merge_and_rank [⟨"x", "dx", some 1⟩] [⟨"c", "dc", none⟩] [] 6,
      e.chunk = "c" → e.score = 0) :=
  ⟨by norm_num [merge_and_rank, combinedMap, vecStep, bm25Step, dictAssign,
      dictSetdefaultThen, safe, sortByScoreDesc, insertRanked, toRanked,
      finalScore, List.foldl, show ¬("x" : String) = "c" from by decide],
   (fusion_score_bounds [⟨"x", "dx", some 1⟩] [⟨"c", "dc", none⟩] [] 6 "c"
      (by intro r hr; simp at hr; subst hr; norm_num [safe])
      (by intro r hr; simp at hr; subst hr; norm_num [safe])
      (by simp)).1,
   (fusion_score_bounds [⟨"x", "dx", some 1⟩] [⟨"c", "dc", none⟩] [] 6 "c"
      (by intro r hr; simp at hr; subst hr; norm_num [safe])
      (by intro r hr; simp at hr; subst hr; norm_num [safe])
      (by simp)).2
     (by intro r hr; simp at hr; subst hr; simp)
     (by intro r hr; simp at hr; subst hr; simp)
     (by simp)⟩

/-! Section: Claim C10 — matched/deleted/failed accounting -/

theorem mem_selectForDeletion {u : Option String} {thr : ℚ}
    {results : List DObj} :
    u ∈ selectForDeletion thr results ↔
      ∃ o ∈ results, o.uuid = u ∧ thr ≤ final_similarity o := by
  simp only [selectForDeletion, List.mem_map, List.mem_filter,
    decide_eq_true_eq]
  constructor
  · rintro ⟨o, ⟨ho, hs⟩, rfl⟩
    exact ⟨o, ho, rfl, hs⟩
  · rintro ⟨o, ho, rfl, hs⟩
    exact ⟨o, ⟨ho, hs⟩, rfl⟩

theorem deletionLoop_accounting (delOk : String → Bool) :
    ∀ (uids : List (Option String)) (store : List StoredRec),
      (∀ u ∈ (deletionLoop delOk uids store).1, u ≠ "" ∧ some u ∈ uids) ∧
      (∀ u ∈ (deletionLoop delOk uids store).2.1, u ≠ "" ∧ some u ∈ uids) ∧
      (deletionLoop delOk uids store).1.length
          + (deletionLoop delOk uids store).2.1.length ≤ uids.length ∧
      ((deletionLoop delOk uids store).1.length
          + (deletionLoop delOk uids store).2.1.length < uids.length ↔
        none ∈ uids ∨ some "" ∈ uids) := by
  intro uids
  induction uids with
  | nil =>
    intro store
    simp [deletionLoop]
  | cons u rest ih =>
    intro store
    cases u with
    | none =>
      obtain ⟨h1, h2, h3, h4⟩ := ih store
      simp only [deletionLoop, List.length_cons]
      refine ⟨fun u hu => ⟨(h1 u hu).1, List.mem_cons_of_mem _ (h1 u hu).2⟩,
        fun u hu => ⟨(h2 u hu).1, List.mem_cons_of_mem _ (h2 u hu).2⟩,
        by omega, ?_⟩
      exact ⟨fun _ => Or.inl (List.mem_cons_self _ _), fun _ => by omega⟩
    | some s =>
      by_cases hs : s = ""
      · subst hs
        obtain ⟨h1, h2, h3, h4⟩ := ih store
        simp only [deletionLoop, eq_self_iff_true, if_true, List.length_cons]
        refine ⟨fun u hu => ⟨(h1 u hu).1, List.mem_cons_of_mem _ (h1 u hu).2⟩,
          fun u hu => ⟨(h2 u hu).1, List.mem_cons_of_mem _ (h2 u hu).2⟩,
          by omega, ?_⟩
        exact ⟨fun _ => Or.inr (List.mem_cons_self _ _), fun _ => by omega⟩
      · by_cases hd : delOk s = true
        · obtain ⟨h1, h2, h3, h4⟩ :=
            ih (store.filter (fun r => r.uuid ≠ some s))
          simp only [deletionLoop, if_neg hs, if_pos hd, List.length_cons]
          refine ⟨?_, ?_, ?_, ?_⟩
          · intro u hu
            rcases List.mem_cons.mp hu with rfl | hu'
            · exact ⟨hs, List.mem_cons_self _ _⟩
            · exact ⟨(h1 u hu').1, List.mem_cons_of_mem _ (h1 u hu').2⟩
          · intro u hu
            exact ⟨(h2 u hu).1, List.mem_cons_of_mem _ (h2 u hu).2⟩
          · omega
          · constructor
            · intro hlt
              rcases h4.mp (by omega) with h | h
              · exact Or.inl (List.mem_cons_of_mem _ h)
              · exact Or.inr (List.mem_cons_of_mem _ h)
            · intro hor
              have hrest : none ∈ rest ∨ some "" ∈ rest := by
                rcases hor with h | h
                · rcases List.mem_cons.mp h with h' | h'
                  · exact absurd h' (by simp)
                  · exact Or.inl h'
                · rcases List.mem_cons.mp h with h' | h'
                  · exact absurd (Option.some.inj h').symm hs
                  · exact Or.inr h'
              have := h4.mpr hrest
              omega
        · obtain ⟨h1, h2, h3, h4⟩ := ih store
          simp only [deletionLoop, if_neg hs, if_neg hd, List.length_cons]
          refine ⟨?_, ?_, ?_, ?_⟩
          · intro u hu
            exact ⟨(h1 u hu).1, List.mem_cons_of_mem _ (h1 u hu).2⟩
          · intro u hu
            rcases List.mem_cons.mp hu with rfl | hu'
            · exact ⟨hs, List.mem_cons_self _ _⟩
            · exact ⟨(h2 u hu').1, List.mem_cons_of_mem _ (h2 u hu').2⟩
          · omega
          · constructor
            · intro hlt
              rcases h4.mp (by omega) with h | h
              · exact Or.inl (List.mem_cons_of_mem _ h)
              · exact Or.inr (List.mem_cons_of_mem _ h)
            · intro hor
              have hrest : none ∈ rest ∨ some "" ∈ rest := by
                rcases hor with h | h
                · rcases List.mem_cons.mp h with h' | h'
                  · exact absurd h' (by simp)
                  · exact Or.inl h'
                · rcases List.mem_cons.mp h with h' | h'
                  · exact absurd (Option.some.inj h').symm hs
                  · exact Or.inr h'
              have := h4.mpr hrest
              omega

/-- C10 counterexample: a matched candidate whose id is the empty string —
non-null — is counted in `matched_count` but lands in neither `deleted`
nor `failed` (the Python test `if not uid` also skips `""`), so the inequality is
strict without any missing/null id. -/
theorem matched_count_exact_cex :
    (delete_similar_to_prompt (PromptArg.str "hello") 0 [] []
        [⟨some "", "", none, none⟩] alwaysDelOk).1
      = DelOutcome.report "hello" 1 [] [] [⟨some "", "", 0, 0, 0, 0⟩] ∧
    (0:Nat) + 0 < 1 ∧ (some "" : Option String) ≠ none := by
  refine ⟨?_, by norm_num, by simp⟩
  simp only [delete_similar_to_prompt]
  rw [if_neg (show ¬((pyStrip "hello".toList).isEmpty = true) from by decide)]
  norm_num [selectForDeletion, deletionLoop, final_similarity,
    vec_similarity, bm25_similarity, keyword_boost, safe, mkDebug,
    boost_keywords, strLower, strContains, listContains, startsWithPat,
    alwaysDelOk, min_def]

/-- C10 amended: in every report returned by the normal path, each id in
`deleted` and `failed` is a non-null, non-empty id of some matched
candidate, `matched_count ≥ len(deleted) + len(failed)`, and the
inequality is strict exactly when some matched candidate has a falsy id —
null or the empty string (both are skipped by `if not uid`). -/
theorem matched_count_accounting (prompt : PromptArg)
    (similarity_threshold : ℚ) (store : List StoredRec)
    (vec_results bm25_results : List DObj) (delOk : String → Bool)
    (s : String) (mc : Nat) (dl fl : List String) (dbg : List DebugEntry)
    (h : (delete_similar_to_prompt prompt similarity_threshold store
            vec_results bm25_results delOk).1
          = DelOutcome.report s mc dl fl dbg) :
    (∀ u ∈ dl, u ≠ "" ∧ ∃ o ∈ vec_results ++ bm25_results,
        o.uuid = some u ∧ similarity_threshold ≤ final_similarity o) ∧
    (∀ u ∈ fl, u ≠ "" ∧ ∃ o ∈ vec_results ++ bm25_results,
        o.uuid = some u ∧ similarity_threshold ≤ final_similarity o) ∧
    dl.length + fl.length ≤ mc ∧
    (dl.length + fl.length < mc ↔
      ∃ o ∈ vec_results ++ bm25_results,
        (o.uuid = none ∨ o.uuid = some "") ∧
        similarity_threshold ≤ final_similarity o) := by
  cases prompt with
  | nonString => simp [delete_similar_to_prompt] at h
  | str s' =>
    simp only [delete_similar_to_prompt] at h
    by_cases hval : (pyStrip s'.toList).isEmpty = true
    · rw [if_pos hval] at h
      simp at h
    · rw [if_neg hval] at h
      by_cases hres : (vec_results ++ bm25_results).isEmpty = true
      · rw [if_pos hres] at h
        simp at h
      · rw [if_neg hres] at h
        rw [DelOutcome.report.injEq] at h
        obtain ⟨-, hmc, hdl, hfl, -⟩ := h
        subst hmc
        subst hdl
        subst hfl
        obtain ⟨H1, H2, H3, H4⟩ := deletionLoop_accounting delOk
          (selectForDeletion similarity_threshold (vec_results ++ bm25_results))
          store
        refine ⟨?_, ?_, H3, ?_⟩
        · intro u hu
          obtain ⟨hne, hmem⟩ := H1 u hu
          obtain ⟨o, ho, houuid, hosim⟩ := mem_selectForDeletion.mp hmem
          exact ⟨hne, o, ho, houuid, hosim⟩
        · intro u hu
          obtain ⟨hne, hmem⟩ := H2 u hu
          obtain ⟨o, ho, houuid, hosim⟩ := mem_selectForDeletion.mp hmem
          exact ⟨hne, o, ho, houuid, hosim⟩
        · rw [H4]
          constructor
          · rintro (hn | hn)
            · obtain ⟨o, ho, houuid, hosim⟩ := mem_selectForDeletion.mp hn
              exact ⟨o, ho, Or.inl houuid, hosim⟩
            · obtain ⟨o, ho, houuid, hosim⟩ := mem_selectForDeletion.mp hn
              exact ⟨o, ho, Or.inr houuid, hosim⟩
          · rintro ⟨o, ho, h1 | h1, hsim⟩
            · exact Or.inl (mem_selectForDeletion.mpr ⟨o, ho, h1, hsim⟩)
            · exact Or.inr (mem_selectForDeletion.mpr ⟨o, ho, h1, hsim⟩)

/-- C10 witness: a concrete normal-path run with one matched, truthy-id
candidate reaches the report outcome, and the accounting bound holds. -/
theorem matched_count_accounting_witness :
    (delete_similar_to_prompt (PromptArg.str "hi") 0 []
        [⟨some "u1", "", none, none⟩] [] alwaysDelOk).1
      = DelOutcome.report "hi" 1 ["u1"] [] [⟨some "u1", "", 0, 0, 0, 0⟩] ∧
    (["u1"] : List String).length + ([] : List String).length ≤ 1 := by
  have hrep : (delete_similar_to_prompt (PromptArg.str "hi") 0 []
        [⟨some "u1", "", none, none⟩] [] alwaysDelOk).1
      = DelOutcome.report "hi" 1 ["u1"] [] [⟨some "u1", "", 0, 0, 0, 0⟩] := by
    simp only [delete_similar_to_prompt]
    rw [if_neg (show ¬((pyStrip "hi".toList).isEmpty = true) from by decide)]
    norm_num [selectForDeletion, deletionLoop, final_similarity,
      vec_similarity, bm25_similarity, keyword_boost, safe, mkDebug,
      boost_keywords, strLower, strContains, listContains, startsWithPat,
      alwaysDelOk, min_def, show ¬(("u1" : String) = "") from by decide]
  exact ⟨hrep,
    (matched_count_accounting _ _ _ _ _ _ _ _ _ _ _ hrep).2.2.1⟩
